import Mathlib

/-!
# Verification of the Bambu Cuts web backend (`bambucuts/webui/app.py`)

A shallow embedding of the pure text-processing core of the backend:
the G-code validator (`validate_gcode`), the G-code formatter
(`format_gcode`), the instruction-line count computed by
`convert_to_gcode`, and the temporary-workspace lifecycle of
`create_3mf` / `convert_to_gcode`.

Lines of text are modelled as `List Char`; a whole request body is a
single `List Char` that is split on the newline character exactly as
Python's `str.split` does.  Python operations used by the source are
given faithful counterparts (`pyStrip`, `pySplit`, `str.split(';')`,
`f"{s:<20}"`, `str.upper`, `str.isdigit`) restricted to ASCII, which is
the alphabet of G-code.  Python indexing that can raise `IndexError` is
modelled with `Except Unit`.
-/

namespace BambuCuts

/-- The characters removed by Python's `str.strip()` (ASCII whitespace). -/
def pySpace (c : Char) : Bool :=
  c = ' ' || c = '\t' || c = '\n' || c = '\r' || c = '\x0b' || c = '\x0c'

/-- Python `str.strip()`: drop leading and trailing whitespace. -/
def pyStrip (l : List Char) : List Char :=
  List.rdropWhile pySpace (List.dropWhile pySpace l)

/-- Python `str.isdigit()` restricted to ASCII: `'0'` through `'9'`. -/
def pyIsDigit (c : Char) : Bool :=
  '0' ≤ c && c ≤ '9'

/-- Python `str.upper()` on a single ASCII character. -/
def pyUpper (c : Char) : Char :=
  if 'a' ≤ c ∧ c ≤ 'z' then Char.ofNat (c.toNat - 32) else c

/-- Python `text.split('\n')`: the parts between newline separators.
`pySplit [] = [[]]`, matching `''.split('\n') == ['']`. -/
def pySplit : List Char → List (List Char)
  | [] => [[]]
  | c :: cs =>
    match pySplit cs with
    | [] => [[]]
    | r :: rs => if c = '\n' then [] :: r :: rs else (c :: r) :: rs

/-- Python `'\n'.join`. -/
def pyJoin : List (List Char) → List Char
  | [] => []
  | [p] => p
  | p :: q :: rest => p ++ '\n' :: pyJoin (q :: rest)

/-- The comment-stripped command text the validator and formatter inspect,
or `none` when the line is skipped.  Mirrors `app.py` lines 59-67:
`line = line.strip()`; skip when empty or starting with `';'`; when the
line contains `';'`, replace it by `line.split(';')[0].strip()`. -/
def codeOf (l : List Char) : Option (List Char) :=
  match pyStrip l with
  | [] => none
  | c :: cs =>
    if c = ';' then none
    else if ';' ∈ c :: cs then
      some (pyStrip ((c :: cs).takeWhile (fun a => a ≠ ';')))
    else some (c :: cs)

/-- A structural validation error for one line. -/
inductive VErr where
  | invalidStart (c : Char)
  | missingNum
deriving DecidableEq, Repr

/-- Renders an error as `validate_gcode` does (`app.py` lines 71 and 78). -/
def renderErr (n : Nat) : VErr → String
  | .invalidStart c =>
      "Line " ++ toString n ++ ": Invalid command start \x27" ++
        String.singleton c ++ "\x27"
  | .missingNum => "Line " ++ toString n ++ ": Missing command number"

/-- The two checks of `validate_gcode` on a nonempty command text
(`app.py` lines 70-78): `line[0].upper()` must be one of `G`, `M`, `T`,
`N` (else `Invalid command start`, skipping the rest of the line), and
when `line.upper()` starts with `G` or `M` the second character must
exist and be a digit (else `Missing command number`). -/
def verdictOf (c : Char) (rest : List Char) : Option VErr :=
  if (pyUpper c = 'G' || pyUpper c = 'M' || pyUpper c = 'T' || pyUpper c = 'N') = false then
    some (.invalidStart c)
  else if pyUpper c = 'G' || pyUpper c = 'M' then
    match rest with
    | [] => some .missingNum
    | d :: _ => if pyIsDigit d then none else some .missingNum
  else none

/-- The per-line check of `validate_gcode` (`app.py` lines 57-78), with
Python's fallible `line[0]` indexing made explicit: `Except.error ()`
models the `IndexError` Python would raise were the comment-stripped
command text empty. -/
def validateLine (l : List Char) : Except Unit (Option VErr) :=
  match codeOf l with
  | none => Except.ok none
  | some [] => Except.error ()
  | some (c :: rest) => Except.ok (verdictOf c rest)

/-- Total counterpart of `validateLine`; the `some []` case is unreachable
(`codeOf_ne_some_nil` below) and proven to agree with `validateLine`. -/
def lineVerdict (l : List Char) : Option VErr :=
  match codeOf l with
  | none => none
  | some [] => none
  | some (c :: rest) => verdictOf c rest

/-- The scan loop of `validate_gcode`: visit the split lines in order with
a 1-based counter, collecting rendered error messages. -/
def scanLines : Nat → List (List Char) → Except Unit (List String)
  | _, [] => Except.ok []
  | n, l :: ls =>
    match validateLine l, scanLines (n + 1) ls with
    | Except.error e, _ => Except.error e
    | Except.ok _, Except.error e => Except.error e
    | Except.ok none, Except.ok rest => Except.ok rest
    | Except.ok (some v), Except.ok rest => Except.ok (renderErr n v :: rest)

/-- Total counterpart of `scanLines` via `lineVerdict`. -/
def errList : Nat → List (List Char) → List String
  | _, [] => []
  | n, l :: ls =>
    match lineVerdict l with
    | none => errList (n + 1) ls
    | some v => renderErr n v :: errList (n + 1) ls

/-- The validation report returned by `validate_gcode` (`app.py` lines 80-85). -/
structure Report where
  valid : Bool
  errors : List String
  warnings : List String
  line_count : Nat
deriving DecidableEq, Repr

/-- `validate_gcode` (`app.py` lines 47-85): split on newlines, scan every
line, and report `valid := errors.isEmpty`, the errors, the (always empty)
warnings, and the number of visited lines. -/
def validateDoc (text : List Char) : Except Unit Report :=
  match scanLines 1 (pySplit text) with
  | Except.error e => Except.error e
  | Except.ok errs =>
      Except.ok { valid := errs.isEmpty, errors := errs, warnings := [],
                  line_count := (pySplit text).length }

/-- Python `f"{s:<20}"`: left-justify, padding with spaces on the right
(never truncating). -/
def ljust (l : List Char) (w : Nat) : List Char :=
  l ++ List.replicate (w - l.length) ' '

/-- The per-line rewrite of `format_gcode` (`app.py` lines 95-110):
strip; keep empty and comment lines as stripped; split a commented
command line at the first `';'` (`line.split(';', 1)`), strip both
parts, and emit `f"{code_part:<20} ; {comment_part}"`. -/
def formatLine (l : List Char) : List Char :=
  match pyStrip l with
  | [] => []
  | c :: cs =>
    if c = ';' then c :: cs
    else if ';' ∈ c :: cs then
      let code := pyStrip ((c :: cs).takeWhile (fun a => a ≠ ';'))
      let comment := pyStrip (((c :: cs).dropWhile (fun a => a ≠ ';')).tail)
      ljust code 20 ++ ' ' :: ';' :: ' ' :: comment
    else c :: cs

/-- `format_gcode` (`app.py` lines 87-114): split on newlines, rewrite each
line, and join with newlines. -/
def formatDoc (text : List Char) : List Char :=
  pyJoin ((pySplit text).map formatLine)

/-- The per-line filter of the line count in `convert_to_gcode`
(`app.py` line 229): `line.strip() and not line.strip().startswith(';')`. -/
def keptLine (l : List Char) : Bool :=
  !(pyStrip l).isEmpty && !((pyStrip l).head? = some ';')

/-- The instruction-line count reported by `convert_to_gcode`
(`app.py` line 229). -/
def countLines (text : List Char) : Nat :=
  ((pySplit text).filter keptLine).length

/-- The success response of `convert_to_gcode` (`app.py` lines 231-236). -/
structure ConversionSuccess where
  success : Bool
  gcode : List Char
  line_count : Nat
deriving DecidableEq, Repr

/-- The success branch of `convert_to_gcode` (`app.py` lines 224-236):
once the collaborator has written the instruction text, the response is
built from it directly — the content is never validated. -/
def conversionReport (gcode_content : List Char) : ConversionSuccess :=
  { success := true, gcode := gcode_content, line_count := countLines gcode_content }

/-- The temporary workspace of one request after the call returns:
whether the `tempfile.mkdtemp()` directory still exists and which files
remain inside it. -/
structure Workspace where
  dirPresent : Bool
  files : List String
deriving DecidableEq, Repr

/-- Result and final workspace state of one request. -/
structure CallOutcome where
  success : Bool
  ws : Workspace
deriving DecidableEq, Repr

/-- The workspace lifecycle of `create_3mf` (`app.py` lines 116-172),
with the collaborator outcomes as parameters: `gcodeBlank` is
`not gcode_text.strip()` (line 123), `templateMissing` is the missing
packaging template (line 141), `processFails` models `process_3mf`
raising (line 149).  The `except` branch (lines 159-172) removes the
written G-code file, the archive if present, and the directory; the
missing-template return (line 142) and the successful `send_file` return
(lines 152-157) run no cleanup — the function has no `finally` block. -/
def create3mf (gcodeBlank templateMissing processFails : Bool) : CallOutcome :=
  if gcodeBlank then
    { success := false, ws := { dirPresent := false, files := [] } }
  else if templateMissing then
    { success := false, ws := { dirPresent := true, files := ["temp_plot.gcode"] } }
  else if processFails then
    { success := false, ws := { dirPresent := false, files := [] } }
  else
    { success := true,
      ws := { dirPresent := true, files := ["temp_plot.gcode", "plot.3mf"] } }

/-- The `finally` block of `convert_to_gcode` (`app.py` lines 244-262):
removes each tracked file if present, removes any remaining files of the
directory, then removes the directory. -/
def wsCleanup (_w : Workspace) : Workspace :=
  { dirPresent := false, files := [] }

/-- The workspace lifecycle of `convert_to_gcode` (`app.py` lines
174-262): the three early returns (lines 177-187) happen before the
directory is created; every later path — DXF conversion failure, G-code
generation failure, or success — runs the `finally` cleanup. -/
def convertToGcode (noFile emptyName badType isDxf dxfFails svgFails : Bool) :
    CallOutcome :=
  if noFile || emptyName || badType then
    { success := false, ws := { dirPresent := false, files := [] } }
  else
    { success := !(isDxf && dxfFails) && !svgFails,
      ws := wsCleanup { dirPresent := true, files := ["input"] } }

/-! ## Helper lemmas about the Python string primitives -/

theorem dropWhile_append_of_all {p : Char → Bool} {xs : List Char} (ys : List Char)
    (h : ∀ a ∈ xs, p a = true) :
    List.dropWhile p (xs ++ ys) = List.dropWhile p ys := by
  induction xs with
  | nil => rfl
  | cons x xs ih =>
    have hx : p x = true := h x (List.mem_cons_self x xs)
    simp only [List.cons_append, List.dropWhile_cons, hx, if_true]
    exact ih fun a ha => h a (List.mem_cons_of_mem _ ha)

theorem takeWhile_append_of_all {p : Char → Bool} {xs : List Char} (ys : List Char)
    (h : ∀ a ∈ xs, p a = true) :
    List.takeWhile p (xs ++ ys) = xs ++ List.takeWhile p ys := by
  induction xs with
  | nil => rfl
  | cons x xs ih =>
    have hx : p x = true := h x (List.mem_cons_self x xs)
    simp only [List.cons_append, List.takeWhile_cons, hx, if_true,
      ih fun a ha => h a (List.mem_cons_of_mem _ ha)]

theorem rdropWhile_append_of_all {p : Char → Bool} (xs : List Char) {ys : List Char}
    (h : ∀ a ∈ ys, p a = true) :
    List.rdropWhile p (xs ++ ys) = List.rdropWhile p xs := by
  unfold List.rdropWhile
  rw [List.reverse_append, dropWhile_append_of_all _ fun a ha => h a (List.mem_reverse.mp ha)]

theorem rdropWhile_append_right {p : Char → Bool} (xs : List Char) {ys : List Char}
    (h : List.rdropWhile p ys = ys) (hne : ys ≠ []) :
    List.rdropWhile p (xs ++ ys) = xs ++ ys := by
  rcases List.eq_nil_or_concat ys with h0 | ⟨L, b, rfl⟩
  · exact absurd h0 hne
  · simp only [List.concat_eq_append] at h hne ⊢
    have hpb : p b = false := by
      by_contra hb
      have hb' : p b = true := by simpa using hb
      rw [List.rdropWhile_concat_pos p L b hb'] at h
      have hlen := ( List.rdropWhile_prefix p L).length_le
      rw [h] at hlen
      simp at hlen
    rw [← List.append_assoc, List.rdropWhile_concat_neg p (xs ++ L) b (by simp [hpb]),
      List.append_assoc]

theorem dropWhile_head_false {p : Char → Bool} :
    ∀ {l : List Char} {c : Char} {cs : List Char},
      List.dropWhile p l = c :: cs → p c = false := by
  intro l
  induction l with
  | nil => intro c cs h; simp [List.dropWhile] at h
  | cons x xs ih =>
    intro c cs h
    rw [List.dropWhile_cons] at h
    split at h
    · exact ih h
    · next hx => cases h; simpa using hx

theorem pyStrip_head_not_space {l : List Char} {c : Char} {cs : List Char}
    (h : pyStrip l = c :: cs) : pySpace c = false := by
  obtain ⟨t, ht⟩ := List.rdropWhile_prefix pySpace (List.dropWhile pySpace l)
  rw [show List.rdropWhile pySpace (List.dropWhile pySpace l) = pyStrip l from rfl, h] at ht
  exact dropWhile_head_false (show List.dropWhile pySpace l = c :: (cs ++ t) by
    rw [← ht]; rfl)

theorem lstrip_pyStrip (l : List Char) :
    List.dropWhile pySpace (pyStrip l) = pyStrip l := by
  cases h : pyStrip l with
  | nil => rfl
  | cons c cs => rw [List.dropWhile_cons, pyStrip_head_not_space h]; simp

theorem rstrip_pyStrip (l : List Char) :
    List.rdropWhile pySpace (pyStrip l) = pyStrip l :=
  List.rdropWhile_idempotent pySpace (List.dropWhile pySpace l)

theorem pyStrip_idem (l : List Char) : pyStrip (pyStrip l) = pyStrip l := by
  have h : pyStrip (pyStrip l)
      = List.rdropWhile pySpace (List.dropWhile pySpace (pyStrip l)) := rfl
  rw [h, lstrip_pyStrip, rstrip_pyStrip]

theorem mem_pyStrip {a : Char} {l : List Char} (h : a ∈ pyStrip l) : a ∈ l := by
  obtain ⟨t, ht⟩ := List.rdropWhile_prefix pySpace (List.dropWhile pySpace l)
  have h1 : a ∈ List.dropWhile pySpace l := by
    rw [← ht]
    exact List.mem_append_left _ h
  exact (List.dropWhile_suffix pySpace).subset h1

/-- The comment-stripped command text of a stripped line that is not
blank, not a full-line comment, and contains a `';'`: it keeps the line's
first character, is itself stripped, and contains no `';'`. -/
theorem codeSpec {l : List Char} {c : Char} {cs : List Char}
    (h : pyStrip l = c :: cs) (hc : c ≠ ';') :
    ∃ t, pyStrip ((c :: cs).takeWhile (fun a => a ≠ ';')) = c :: t ∧
      (';' : Char) ∉ c :: t := by
  have hsp : pySpace c = false := pyStrip_head_not_space h
  have htw : (c :: cs).takeWhile (fun a => a ≠ ';')
      = c :: cs.takeWhile (fun a => a ≠ ';') := by
    rw [List.takeWhile_cons]
    simp [hc]
  set tw := cs.takeWhile (fun a => a ≠ ';') with htw2
  have hdw : List.dropWhile pySpace (c :: tw) = c :: tw := by
    rw [List.dropWhile_cons, hsp]; simp
  have hps : pyStrip ((c :: cs).takeWhile (fun a => a ≠ ';'))
      = List.rdropWhile pySpace (c :: tw) := by
    rw [show pyStrip ((c :: cs).takeWhile (fun a => a ≠ ';'))
        = List.rdropWhile pySpace
            (List.dropWhile pySpace ((c :: cs).takeWhile (fun a => a ≠ ';'))) from rfl,
      htw, hdw]
  have hne : List.rdropWhile pySpace (c :: tw) ≠ [] := by
    rw [Ne, List.rdropWhile_eq_nil_iff]
    intro hall
    have := hall c (List.mem_cons_self c tw)
    rw [hsp] at this
    exact Bool.false_ne_true this
  obtain ⟨t0, ht0⟩ := List.rdropWhile_prefix pySpace (c :: tw)
  cases h2 : List.rdropWhile pySpace (c :: tw) with
  | nil => exact absurd h2 hne
  | cons d ds =>
    rw [h2] at ht0
    have hdc : d = c := by
      have := congrArg (List.head? ·) ht0
      simpa using this
    rw [hdc] at h2 ht0
    refine ⟨ds, by rw [hps, h2], ?_⟩
    intro hmem
    rcases List.mem_cons.mp hmem with h3 | h3
    · exact hc h3.symm
    · have h4 : (';' : Char) ∈ c :: tw := by
        rw [← ht0]
        exact List.mem_append_left _ (List.mem_cons_of_mem _ h3)
      rcases List.mem_cons.mp h4 with h5 | h5
      · exact hc h5.symm
      · have := List.mem_takeWhile_imp h5
        simp at this

/-- Analysis of a formatted command line
`f"{code_part:<20} ; {comment_part}"`: how the validator's and the
formatter's own line processing decompose it again. -/
theorem out_analysis {c : Char} {t comment0 : List Char}
    (hsp : pySpace c = false) (hnosemi : (';' : Char) ∉ c :: t)
    (hr : List.rdropWhile pySpace (c :: t) = c :: t)
    (hlc : List.dropWhile pySpace comment0 = comment0)
    (hrc : List.rdropWhile pySpace comment0 = comment0) :
    ∃ c2 : List Char,
      pyStrip (ljust (c :: t) 20 ++ ' ' :: ';' :: ' ' :: comment0) = c :: c2
      ∧ (';' : Char) ∈ c :: c2
      ∧ pyStrip ((c :: c2).takeWhile (fun a => a ≠ ';')) = c :: t
      ∧ pyStrip (((c :: c2).dropWhile (fun a => a ≠ ';')).tail) = comment0 := by
  set pad := List.replicate (20 - (c :: t).length) ' ' with hpad
  have hpadsp : ∀ a ∈ pad, pySpace a = true := by
    intro a ha
    rw [(List.mem_replicate.mp ha).2]
    rfl
  have hpadsemi : ∀ a ∈ pad, a ≠ ';' := by
    intro a ha
    rw [(List.mem_replicate.mp ha).2]
    decide
  have hljust : ljust (c :: t) 20 = (c :: t) ++ pad := rfl
  have hnosemi' : ∀ a ∈ (c :: t) ++ pad, (fun a => decide (a ≠ ';')) a = true := by
    intro a ha
    rcases List.mem_append.mp ha with ha | ha
    · simp only [decide_eq_true_eq]
      intro hEq
      exact hnosemi (hEq ▸ ha)
    · simpa using hpadsemi a ha
  -- the comment-stripped command text recomputed from the output line
  have htake : ∀ rest : List Char,
      (((c :: t) ++ pad) ++ ' ' :: ';' :: rest).takeWhile (fun a => a ≠ ';')
        = ((c :: t) ++ pad) ++ [' '] := by
    intro rest
    rw [takeWhile_append_of_all _ hnosemi']
    simp [List.takeWhile_cons]
  have htakeStrip : pyStrip (((c :: t) ++ pad) ++ [' ']) = c :: t := by
    have h1 : List.dropWhile pySpace (((c :: t) ++ pad) ++ [' '])
        = ((c :: t) ++ pad) ++ [' '] := by
      rw [show ((c :: t) ++ pad) ++ [' '] = c :: (t ++ pad ++ [' ']) by simp,
        List.dropWhile_cons, hsp]
      simp
    have h2 : List.rdropWhile pySpace (((c :: t) ++ pad) ++ [' '])
        = c :: t := by
      rw [List.append_assoc, rdropWhile_append_of_all (c :: t) ?hall, hr]
      case hall =>
        intro a ha
        rcases List.mem_append.mp ha with ha | ha
        · exact hpadsp a ha
        · rw [List.mem_singleton.mp ha]; rfl
    rw [show pyStrip (((c :: t) ++ pad) ++ [' '])
        = List.rdropWhile pySpace (List.dropWhile pySpace (((c :: t) ++ pad) ++ [' '])) from rfl,
      h1, h2]
  have hdrop : ∀ rest : List Char,
      (((c :: t) ++ pad) ++ ' ' :: ';' :: rest).dropWhile (fun a => a ≠ ';')
        = ';' :: rest := by
    intro rest
    rw [dropWhile_append_of_all _ hnosemi']
    simp [List.dropWhile_cons]
  cases hcomm : comment0 with
  | nil =>
    refine ⟨t ++ pad ++ [' ', ';'], ?_, ?_, ?_, ?_⟩
    · have harr : ljust (c :: t) 20 ++ ' ' :: ';' :: ' ' :: ([] : List Char)
          = (((c :: t) ++ pad) ++ [' ', ';']) ++ [' '] := by
        rw [hljust]; simp
      have h1 : List.dropWhile pySpace ((((c :: t) ++ pad) ++ [' ', ';']) ++ [' '])
          = (((c :: t) ++ pad) ++ [' ', ';']) ++ [' '] := by
        rw [show (((c :: t) ++ pad) ++ [' ', ';']) ++ [' ']
            = c :: (t ++ pad ++ [' ', ';'] ++ [' ']) by simp,
          List.dropWhile_cons, hsp]
        simp
      have h2 : List.rdropWhile pySpace ((((c :: t) ++ pad) ++ [' ', ';']) ++ [' '])
          = ((c :: t) ++ pad) ++ [' ', ';'] := by
        rw [List.rdropWhile_concat_pos pySpace _ ' ' (by rfl),
          show ((c :: t) ++ pad) ++ [' ', ';'] = (((c :: t) ++ pad) ++ [' ']) ++ [';'] by simp,
          List.rdropWhile_concat_neg pySpace _ ';' (by decide)]
      rw [harr,
        show pyStrip ((((c :: t) ++ pad) ++ [' ', ';']) ++ [' '])
          = List.rdropWhile pySpace
              (List.dropWhile pySpace ((((c :: t) ++ pad) ++ [' ', ';']) ++ [' '])) from rfl,
        h1, h2]
      simp
    · simp
    · have harr : c :: (t ++ pad ++ [' ', ';'])
          = ((c :: t) ++ pad) ++ ' ' :: ';' :: [] := by simp
      rw [harr, htake, htakeStrip]
    · have harr : c :: (t ++ pad ++ [' ', ';'])
          = ((c :: t) ++ pad) ++ ' ' :: ';' :: [] := by simp
      rw [harr, hdrop]
      rfl
  | cons d ds =>
    refine ⟨t ++ pad ++ ' ' :: ';' :: ' ' :: (d :: ds), ?_, ?_, ?_, ?_⟩
    · have harr : ljust (c :: t) 20 ++ ' ' :: ';' :: ' ' :: (d :: ds)
          = c :: (t ++ pad ++ ' ' :: ';' :: ' ' :: (d :: ds)) := by
        rw [hljust]; simp
      have h1 : List.dropWhile pySpace (c :: (t ++ pad ++ ' ' :: ';' :: ' ' :: (d :: ds)))
          = c :: (t ++ pad ++ ' ' :: ';' :: ' ' :: (d :: ds)) := by
        rw [List.dropWhile_cons, hsp]
        simp
      have h2 : List.rdropWhile pySpace (c :: (t ++ pad ++ ' ' :: ';' :: ' ' :: (d :: ds)))
          = c :: (t ++ pad ++ ' ' :: ';' :: ' ' :: (d :: ds)) := by
        rw [show c :: (t ++ pad ++ ' ' :: ';' :: ' ' :: (d :: ds))
            = (c :: t ++ pad ++ [' ', ';', ' ']) ++ (d :: ds) by simp,
          rdropWhile_append_right _ (hcomm ▸ hrc) (by simp)]
      rw [harr,
        show pyStrip (c :: (t ++ pad ++ ' ' :: ';' :: ' ' :: (d :: ds)))
          = List.rdropWhile pySpace
              (List.dropWhile pySpace (c :: (t ++ pad ++ ' ' :: ';' :: ' ' :: (d :: ds)))) from rfl,
        h1, h2]
    · simp
    · have harr : c :: (t ++ pad ++ ' ' :: ';' :: ' ' :: (d :: ds))
          = ((c :: t) ++ pad) ++ ' ' :: ';' :: (' ' :: (d :: ds)) := by simp
      rw [harr, htake, htakeStrip]
    · have harr : c :: (t ++ pad ++ ' ' :: ';' :: ' ' :: (d :: ds))
          = ((c :: t) ++ pad) ++ ' ' :: ';' :: (' ' :: (d :: ds)) := by simp
      rw [harr, hdrop]
      have h1 : pyStrip ((';' :: ' ' :: (d :: ds)).tail)
          = List.rdropWhile pySpace (List.dropWhile pySpace (' ' :: (d :: ds))) := rfl
      rw [h1, List.dropWhile_cons]
      simp only [show pySpace ' ' = true from rfl, if_true]
      have hlc' : List.dropWhile pySpace (d :: ds) = d :: ds := by
        rw [← hcomm]; exact hlc
      have hrc' : List.rdropWhile pySpace (d :: ds) = d :: ds := by
        rw [← hcomm]; exact hrc
      rw [hlc', hrc']

/-! ## Branch equations for `formatLine` and `codeOf` -/

theorem formatLine_of_strip_nil {l : List Char} (h : pyStrip l = []) :
    formatLine l = [] := by
  unfold formatLine
  rw [h]

theorem formatLine_of_comment {l : List Char} {c : Char} {cs : List Char}
    (h : pyStrip l = c :: cs) (hc : c = ';') : formatLine l = c :: cs := by
  unfold formatLine
  rw [h]
  simp [hc]

theorem formatLine_of_plain {l : List Char} {c : Char} {cs : List Char}
    (h : pyStrip l = c :: cs) (hc : ¬c = ';')
    (hcont : (';' : Char) ∉ c :: cs) : formatLine l = c :: cs := by
  unfold formatLine
  rw [h]
  simp only [hc, hcont, ite_false, ite_true, if_neg, if_pos]

theorem formatLine_spec {l : List Char} {c : Char} {cs : List Char}
    (h : pyStrip l = c :: cs) (hc : ¬c = ';')
    (hcont : (';' : Char) ∈ c :: cs) :
    formatLine l
      = ljust (pyStrip ((c :: cs).takeWhile (fun a => a ≠ ';'))) 20 ++
        ' ' :: ';' :: ' ' :: pyStrip (((c :: cs).dropWhile (fun a => a ≠ ';')).tail) := by
  unfold formatLine
  rw [h]
  simp [hc, hcont]

theorem codeOf_of_strip_nil {l : List Char} (h : pyStrip l = []) :
    codeOf l = none := by
  unfold codeOf
  rw [h]

theorem codeOf_of_comment {l : List Char} {c : Char} {cs : List Char}
    (h : pyStrip l = c :: cs) (hc : c = ';') : codeOf l = none := by
  unfold codeOf
  rw [h]
  simp [hc]

theorem codeOf_of_plain {l : List Char} {c : Char} {cs : List Char}
    (h : pyStrip l = c :: cs) (hc : ¬c = ';')
    (hcont : (';' : Char) ∉ c :: cs) : codeOf l = some (c :: cs) := by
  unfold codeOf
  rw [h]
  simp [hc, hcont]

theorem codeOf_spec {l : List Char} {c : Char} {cs : List Char}
    (h : pyStrip l = c :: cs) (hc : ¬c = ';')
    (hcont : (';' : Char) ∈ c :: cs) :
    codeOf l = some (pyStrip ((c :: cs).takeWhile (fun a => a ≠ ';'))) := by
  unfold codeOf
  rw [h]
  simp [hc, hcont]

/-- Re-stripping a stripped line is the identity. -/
theorem pyStrip_of_strip_cons {l : List Char} {c : Char} {cs : List Char}
    (h : pyStrip l = c :: cs) : pyStrip (c :: cs) = c :: cs := by
  have h2 := pyStrip_idem l
  rwa [h] at h2

/-- Formatting never changes how the validator classifies a line. -/
theorem codeOf_formatLine (l : List Char) : codeOf (formatLine l) = codeOf l := by
  cases h : pyStrip l with
  | nil =>
    rw [formatLine_of_strip_nil h, codeOf_of_strip_nil h,
      codeOf_of_strip_nil (show pyStrip ([] : List Char) = [] from rfl)]
  | cons c cs =>
    have hss := pyStrip_of_strip_cons h
    by_cases hc : c = ';'
    · rw [formatLine_of_comment h hc, codeOf_of_comment h hc, codeOf_of_comment hss hc]
    · by_cases hcont : (';' : Char) ∈ c :: cs
      · obtain ⟨t, hcode, hnosemi⟩ := codeSpec h hc
        obtain ⟨c2, h1, h2, h3, h4⟩ := @out_analysis c t
          (pyStrip (((c :: cs).dropWhile (fun a => a ≠ ';')).tail))
          (pyStrip_head_not_space h) hnosemi
          (by rw [← hcode]; exact rstrip_pyStrip _)
          (lstrip_pyStrip _) (rstrip_pyStrip _)
        rw [formatLine_spec h hc hcont, hcode, codeOf_spec h1 ?semi h2,
          codeOf_spec h hc hcont, h3, hcode]
        case semi =>
          intro hEq
          exact absurd (hEq ▸ List.mem_cons_self c t) hnosemi
      · rw [formatLine_of_plain h hc hcont, codeOf_of_plain h hc hcont,
          codeOf_of_plain hss hc hcont]

/-- The formatter is idempotent on a single line. -/
theorem formatLine_idem (l : List Char) : formatLine (formatLine l) = formatLine l := by
  cases h : pyStrip l with
  | nil =>
    rw [formatLine_of_strip_nil h,
      formatLine_of_strip_nil (show pyStrip ([] : List Char) = [] from rfl)]
  | cons c cs =>
    have hss := pyStrip_of_strip_cons h
    by_cases hc : c = ';'
    · rw [formatLine_of_comment h hc, formatLine_of_comment hss hc]
    · by_cases hcont : (';' : Char) ∈ c :: cs
      · obtain ⟨t, hcode, hnosemi⟩ := codeSpec h hc
        obtain ⟨c2, h1, h2, h3, h4⟩ := @out_analysis c t
          (pyStrip (((c :: cs).dropWhile (fun a => a ≠ ';')).tail))
          (pyStrip_head_not_space h) hnosemi
          (by rw [← hcode]; exact rstrip_pyStrip _)
          (lstrip_pyStrip _) (rstrip_pyStrip _)
        rw [formatLine_spec h hc hcont, hcode, formatLine_spec h1 ?semi h2, h3, h4]
        case semi =>
          intro hEq
          exact absurd (hEq ▸ List.mem_cons_self c t) hnosemi
      · rw [formatLine_of_plain h hc hcont, formatLine_of_plain hss hc hcont]

/-- Formatting never changes a line's validation verdict. -/
theorem lineVerdict_formatLine (l : List Char) :
    lineVerdict (formatLine l) = lineVerdict l := by
  unfold lineVerdict
  rw [codeOf_formatLine]

/-! ## The validator never hits the unreachable empty-command case -/

/-- The comment-stripped command text is never empty: the stripped line
starts with a character that is neither whitespace nor `';'`, and that
character survives `split(';')[0].strip()`. -/
theorem codeOf_ne_some_nil (l : List Char) : codeOf l ≠ some [] := by
  cases h : pyStrip l with
  | nil => rw [codeOf_of_strip_nil h]; simp
  | cons c cs =>
    by_cases hc : c = ';'
    · rw [codeOf_of_comment h hc]; simp
    · by_cases hcont : (';' : Char) ∈ c :: cs
      · obtain ⟨t, hcode, _⟩ := codeSpec h hc
        rw [codeOf_spec h hc hcont, hcode]
        simp
      · rw [codeOf_of_plain h hc hcont]
        simp

theorem validateLine_eq (l : List Char) :
    validateLine l = Except.ok (lineVerdict l) := by
  unfold validateLine lineVerdict
  cases h : codeOf l with
  | none => rfl
  | some code =>
    cases code with
    | nil => exact absurd h (codeOf_ne_some_nil l)
    | cons c rest => rfl

theorem scanLines_eq (ls : List (List Char)) :
    ∀ n : Nat, scanLines n ls = Except.ok (errList n ls) := by
  induction ls with
  | nil => intro n; rfl
  | cons l ls ih =>
    intro n
    unfold scanLines errList
    rw [validateLine_eq, ih (n + 1)]
    cases lineVerdict l <;> rfl

/-- `validate_gcode` never raises: the report it returns, in closed form. -/
theorem validateDoc_eq (t : List Char) :
    validateDoc t
      = Except.ok { valid := (errList 1 (pySplit t)).isEmpty,
                    errors := errList 1 (pySplit t), warnings := [],
                    line_count := (pySplit t).length } := by
  unfold validateDoc
  rw [scanLines_eq]

/-! ## Structure of the error list -/

theorem errList_congr_of_verdict {f : List Char → List Char}
    (hf : ∀ l, lineVerdict (f l) = lineVerdict l) (ls : List (List Char)) :
    ∀ n : Nat, errList n (ls.map f) = errList n ls := by
  induction ls with
  | nil => intro n; rfl
  | cons l ls ih =>
    intro n
    rw [List.map_cons]
    unfold errList
    rw [hf l, ih (n + 1)]

theorem errList_cons (n : Nat) (l : List Char) (ls : List (List Char)) :
    errList n (l :: ls)
      = match lineVerdict l with
        | none => errList (n + 1) ls
        | some v => renderErr n v :: errList (n + 1) ls := rfl

theorem errList_append (xs ys : List (List Char)) :
    ∀ n : Nat, errList n (xs ++ ys) = errList n xs ++ errList (n + xs.length) ys := by
  induction xs with
  | nil => intro n; simp [errList]
  | cons x xs ih =>
    intro n
    rw [List.cons_append, errList_cons, errList_cons]
    have hlen : n + 1 + xs.length = n + (x :: xs).length := by simp; omega
    cases hv : lineVerdict x with
    | none =>
      simp only [ih (n + 1), hlen]
    | some v =>
      simp only [ih (n + 1), hlen, List.cons_append]

theorem errList_eq_enumFrom (ls : List (List Char)) :
    ∀ n : Nat, errList n ls
      = (ls.enumFrom n).filterMap fun p => (lineVerdict p.2).map (renderErr p.1) := by
  induction ls with
  | nil => intro n; rfl
  | cons l ls ih =>
    intro n
    rw [List.enumFrom_cons, List.filterMap_cons, errList_cons]
    cases hv : lineVerdict l with
    | none => simp only [hv, Option.map_none', ih (n + 1)]
    | some v => simp only [hv, Option.map_some', ih (n + 1)]

/-! ## Splitting and joining on newlines -/

theorem pySplit_cons_newline {cs : List Char} {r : List Char} {rs : List (List Char)}
    (hr : pySplit cs = r :: rs) : pySplit ('\n' :: cs) = [] :: r :: rs := by
  unfold pySplit
  rw [hr]
  rfl

theorem pySplit_cons_other {c : Char} {cs : List Char} {r : List Char}
    {rs : List (List Char)} (hc : ¬c = '\n') (hr : pySplit cs = r :: rs) :
    pySplit (c :: cs) = (c :: r) :: rs := by
  unfold pySplit
  rw [hr]
  exact if_neg hc

theorem pySplit_ne_nil : ∀ t : List Char, pySplit t ≠ [] := by
  intro t
  induction t with
  | nil => simp [pySplit]
  | cons c cs ih =>
    cases hr : pySplit cs with
    | nil => exact absurd hr ih
    | cons r rs =>
      by_cases hc : c = '\n'
      · rw [hc, pySplit_cons_newline hr]; simp
      · rw [pySplit_cons_other hc hr]; simp

theorem pySplit_no_newline (t : List Char) :
    ∀ p ∈ pySplit t, ('\n' : Char) ∉ p := by
  induction t with
  | nil =>
    intro p hp
    rw [show pySplit [] = [[]] from rfl, List.mem_singleton] at hp
    simp [hp]
  | cons c cs ih =>
    intro p hp
    cases hr : pySplit cs with
    | nil => exact absurd hr (pySplit_ne_nil cs)
    | cons r rs =>
      by_cases hc : c = '\n'
      · rw [hc, pySplit_cons_newline hr] at hp
        rcases List.mem_cons.mp hp with h1 | h1
        · simp [h1]
        · exact ih p (hr ▸ h1)
      · rw [pySplit_cons_other hc hr] at hp
        rcases List.mem_cons.mp hp with h1 | h1
        · subst h1
          intro hmem
          rcases List.mem_cons.mp hmem with h2 | h2
          · exact hc h2.symm
          · exact ih r (hr ▸ List.mem_cons_self r rs) h2
        · exact ih p (hr ▸ List.mem_cons_of_mem r h1)

theorem pySplit_of_no_newline {xs : List Char} (h : ('\n' : Char) ∉ xs) :
    pySplit xs = [xs] := by
  induction xs with
  | nil => rfl
  | cons x xs ih =>
    have hx : ¬x = '\n' := fun hEq => h (by rw [hEq]; exact List.mem_cons_self _ _)
    have h' : ('\n' : Char) ∉ xs := fun hm => h (List.mem_cons_of_mem _ hm)
    exact pySplit_cons_other hx (ih h')

theorem pySplit_append {xs : List Char} (ys : List Char) (h : ('\n' : Char) ∉ xs) :
    pySplit (xs ++ '\n' :: ys) = xs :: pySplit ys := by
  induction xs with
  | nil =>
    rw [List.nil_append]
    cases hr : pySplit ys with
    | nil => exact absurd hr (pySplit_ne_nil ys)
    | cons r rs => rw [pySplit_cons_newline hr]
  | cons x xs ih =>
    have hx : ¬x = '\n' := fun hEq => h (by rw [hEq]; exact List.mem_cons_self _ _)
    have h' : ('\n' : Char) ∉ xs := fun hm => h (List.mem_cons_of_mem _ hm)
    rw [List.cons_append, pySplit_cons_other hx (ih h')]

theorem pySplit_pyJoin : ∀ {parts : List (List Char)}, parts ≠ [] →
    (∀ p ∈ parts, ('\n' : Char) ∉ p) → pySplit (pyJoin parts) = parts := by
  intro parts
  induction parts with
  | nil => intro h; exact absurd rfl h
  | cons p rest ih =>
    intro _ hnl
    cases rest with
    | nil =>
      rw [show pyJoin [p] = p from rfl]
      exact pySplit_of_no_newline (hnl p (List.mem_cons_self _ _))
    | cons q rest2 =>
      rw [show pyJoin (p :: q :: rest2) = p ++ '\n' :: pyJoin (q :: rest2) from rfl,
        pySplit_append _ (hnl p (List.mem_cons_self _ _)),
        ih (by simp) fun r hr => hnl r (List.mem_cons_of_mem _ hr)]

/-! ## The characters of a formatted line -/

theorem formatLine_mem {a : Char} {l : List Char} (h : a ∈ formatLine l) :
    a ∈ l ∨ a = ' ' ∨ a = ';' := by
  cases hs : pyStrip l with
  | nil => rw [formatLine_of_strip_nil hs] at h; simp at h
  | cons c cs =>
    have hmem_line : ∀ b : Char, b ∈ c :: cs → b ∈ l := by
      intro b hb
      exact mem_pyStrip (by rw [hs]; exact hb)
    by_cases hc : c = ';'
    · rw [formatLine_of_comment hs hc] at h
      exact Or.inl (hmem_line a h)
    · by_cases hcont : (';' : Char) ∈ c :: cs
      · rw [formatLine_spec hs hc hcont] at h
        rcases List.mem_append.mp h with h1 | h1
        · rcases List.mem_append.mp h1 with h2 | h2
          · have h3 := mem_pyStrip h2
            exact Or.inl (hmem_line a (( List.takeWhile_prefix _).subset h3))
          · exact Or.inr (Or.inl (List.mem_replicate.mp h2).2)
        · rcases List.mem_cons.mp h1 with h2 | h2
          · exact Or.inr (Or.inl h2)
          rcases List.mem_cons.mp h2 with h3 | h3
          · exact Or.inr (Or.inr h3)
          rcases List.mem_cons.mp h3 with h4 | h4
          · exact Or.inr (Or.inl h4)
          · have h5 := List.mem_of_mem_tail (mem_pyStrip h4)
            exact Or.inl (hmem_line a ((List.dropWhile_suffix _).subset h5))
      · rw [formatLine_of_plain hs hc hcont] at h
        exact Or.inl (hmem_line a h)

theorem formatLine_no_newline {l : List Char} (h : ('\n' : Char) ∉ l) :
    ('\n' : Char) ∉ formatLine l := by
  intro hmem
  rcases formatLine_mem hmem with h1 | h1 | h1
  · exact h h1
  · exact absurd h1 (by decide)
  · exact absurd h1 (by decide)

/-- Formatting maps the split lines pointwise: the formatted document
splits back into exactly one formatted line per input line. -/
theorem pySplit_formatDoc (t : List Char) :
    pySplit (formatDoc t) = (pySplit t).map formatLine := by
  unfold formatDoc
  apply pySplit_pyJoin
  · intro hEq
    exact pySplit_ne_nil t (List.map_eq_nil_iff.mp hEq)
  · intro p hp
    obtain ⟨q, hq, rfl⟩ := List.mem_map.mp hp
    exact formatLine_no_newline (pySplit_no_newline t q hq)

/-! ## Remaining helper equations -/

theorem errList_cons_none {l : List Char} (ls : List (List Char)) (n : Nat)
    (h : lineVerdict l = none) : errList n (l :: ls) = errList (n + 1) ls := by
  rw [errList_cons, h]

theorem errList_cons_some {l : List Char} {v : VErr} (ls : List (List Char)) (n : Nat)
    (h : lineVerdict l = some v) :
    errList n (l :: ls) = renderErr n v :: errList (n + 1) ls := by
  rw [errList_cons, h]

/-- The skip rule of the reported line count is the skip rule of the
validator: a line is counted exactly when the validator inspects it. -/
theorem keptLine_eq (l : List Char) : keptLine l = (codeOf l).isSome := by
  unfold keptLine
  cases h : pyStrip l with
  | nil => rw [codeOf_of_strip_nil h]; rfl
  | cons c cs =>
    by_cases hc : c = ';'
    · rw [codeOf_of_comment h hc]
      simp [hc]
    · by_cases hcont : (';' : Char) ∈ c :: cs
      · rw [codeOf_spec h hc hcont]
        simp [hc]
      · rw [codeOf_of_plain h hc hcont]
        simp [hc]

/-! ## The claims -/

/-- Claim C6: the validator is total and side-effect-free: for every
input text (including empty text, whitespace-only lines, comment-only
lines, and lines of length 1) `validate_gcode` returns a well-formed
report without raising — `valid` holds exactly when `errors` is empty,
`warnings` is always empty, and `line_count` counts the split lines.
(The embedding is pure, so the input document is trivially unchanged.) -/
theorem claim_C6_validator_total (text : List Char) :
    ∃ r : Report, validateDoc text = Except.ok r
      ∧ (r.valid = true ↔ r.errors = [])
      ∧ r.warnings = []
      ∧ r.line_count = (pySplit text).length := by
  refine ⟨_, validateDoc_eq text, ?_, rfl, rfl⟩
  exact List.isEmpty_iff

/-- Claim C3: for every input document, the errors of
`validate_gcode(format_gcode(d))` equal the errors of
`validate_gcode(d)` — formatting never changes which validation errors
are reported, including their line numbers and messages. -/
theorem claim_C3_format_preserves_errors (text : List Char) :
    Except.map Report.errors (validateDoc (formatDoc text))
      = Except.map Report.errors (validateDoc text) := by
  rw [validateDoc_eq, validateDoc_eq]
  show Except.ok (errList 1 (pySplit (formatDoc text)))
    = Except.ok (errList 1 (pySplit text))
  rw [pySplit_formatDoc, errList_congr_of_verdict lineVerdict_formatLine]

/-- Claim C4: the formatter is idempotent: formatting a formatted
document changes nothing. -/
theorem claim_C4_format_idem (text : List Char) :
    formatDoc (formatDoc text) = formatDoc text := by
  show pyJoin ((pySplit (formatDoc text)).map formatLine) = formatDoc text
  rw [pySplit_formatDoc, List.map_map]
  have h : formatLine ∘ formatLine = formatLine := funext formatLine_idem
  rw [h]
  rfl

/-- Claim C8: neither validation nor formatting reorders the document:
the formatted document has exactly one output line per input line, in
order, each derived solely from the corresponding input line; and the
validator reports every error against the 1-based position of the line
that caused it, in input order. -/
theorem claim_C8_no_reorder :
    (∀ text : List Char, pySplit (formatDoc text) = (pySplit text).map formatLine)
    ∧ ∀ (n : Nat) (ls : List (List Char)),
        errList n ls
          = (ls.enumFrom n).filterMap fun p => (lineVerdict p.2).map (renderErr p.1) :=
  ⟨pySplit_formatDoc, fun n ls => errList_eq_enumFrom ls n⟩

/-- Claim C2 counterexample: validating the exact text
`"G1 X10 Y10 ; move\nG0\n;comment\n"` does not produce the report the
specification describes (one error `"Line 2: Missing command number"`,
`is_valid = false`, `line_count = 3`): the line `"G0"` has the digit
`'0'` after `G`, and the trailing newline yields a fourth, empty line. -/
theorem claim_C2_counterexample :
    ¬ ∃ r : Report,
        validateDoc ("G1 X10 Y10 ; move\nG0\n;comment\n".data) = Except.ok r
        ∧ r.errors = ["Line 2: Missing command number"]
        ∧ r.valid = false ∧ r.line_count = 3 := by
  rintro ⟨r, hr, herr, hval, hcount⟩
  rw [validateDoc_eq] at hr
  obtain rfl := Except.ok.inj hr
  exact absurd herr (by decide)

/-- Claim C2 (amended): validating the exact text
`"G1 X10 Y10 ; move\nG0\n;comment\n"` returns a report with no errors,
`is_valid = true`, and `line_count = 4`. -/
theorem claim_C2_amended :
    validateDoc ("G1 X10 Y10 ; move\nG0\n;comment\n".data)
      = Except.ok { valid := true, errors := [], warnings := [], line_count := 4 } := by
  rw [validateDoc_eq]
  have h1 : errList 1 (pySplit ("G1 X10 Y10 ; move\nG0\n;comment\n".data)) = [] := by
    decide
  have h2 : (pySplit ("G1 X10 Y10 ; move\nG0\n;comment\n".data)).length = 4 := by decide
  rw [h1, h2]
  rfl

/-- Claim C9: the reported instruction line count of a successful
conversion counts exactly the lines the validator would inspect (the
skip-blank/skip-comment rule), and it is an observation only: the
success response is built regardless of the content, so it is produced
even for content that fails validation (for example `"x10\nG1"`). -/
theorem claim_C9_line_count :
    (∀ content : List Char,
        (conversionReport content).success = true
        ∧ (conversionReport content).line_count
            = ((pySplit content).filter (fun l => (codeOf l).isSome)).length)
    ∧ (conversionReport ("x10\nG1".data)).success = true
    ∧ Except.map Report.valid (validateDoc ("x10\nG1".data)) = Except.ok false := by
  refine ⟨fun content => ⟨rfl, ?_⟩, rfl, ?_⟩
  · show ((pySplit content).filter keptLine).length = _
    rw [List.filter_congr fun l _ => keptLine_eq l]
  · rw [validateDoc_eq]
    rfl

/-- Claim C5: a non-blank, non-comment line whose comment-stripped
command text starts with a character outside the command-prefix set
contributes exactly one error, rendered with its 1-based line number and
the original character, and scanning continues over the remaining
lines. -/
theorem claim_C5_invalid_start (text : List Char) (pre post : List (List Char))
    (l : List Char) (c : Char) (rest : List Char)
    (hsplit : pySplit text = pre ++ l :: post)
    (hcode : codeOf l = some (c :: rest))
    (hbad : pyUpper c ≠ 'G' ∧ pyUpper c ≠ 'M' ∧ pyUpper c ≠ 'T' ∧ pyUpper c ≠ 'N') :
    ∃ r : Report, validateDoc text = Except.ok r
      ∧ r.errors
          = errList 1 pre
            ++ ("Line " ++ toString (pre.length + 1) ++ ": Invalid command start \x27"
                ++ String.singleton c ++ "\x27")
            :: errList (pre.length + 2) post := by
  have hcond : (pyUpper c = 'G' || pyUpper c = 'M' || pyUpper c = 'T' || pyUpper c = 'N')
      = false := by
    simp [hbad.1, hbad.2.1, hbad.2.2.1, hbad.2.2.2]
  have hv : lineVerdict l = some (VErr.invalidStart c) := by
    have h0 : lineVerdict l = verdictOf c rest := by
      unfold lineVerdict
      rw [hcode]
    rw [h0]
    unfold verdictOf
    rw [if_pos hcond]
  refine ⟨_, validateDoc_eq text, ?_⟩
  show errList 1 (pySplit text) = _
  rw [hsplit, errList_append, errList_cons_some post _ hv]
  have e1 : 1 + pre.length = pre.length + 1 := by omega
  rw [e1]
  rfl

/-- Witness for claim C5 at the document `"x10\nG1"`: line 1 starts with
`'x'`, yielding exactly `"Line 1: Invalid command start 'x'"`, and line 2
is still scanned. -/
theorem claim_C5_witness :
    (pySplit ("x10\nG1".data) = [] ++ ("x10".data) :: [("G1".data)]
      ∧ codeOf ("x10".data) = some ('x' :: ("10".data))
      ∧ pyUpper 'x' ≠ 'G' ∧ pyUpper 'x' ≠ 'M' ∧ pyUpper 'x' ≠ 'T' ∧ pyUpper 'x' ≠ 'N')
    ∧ ∃ r : Report, validateDoc ("x10\nG1".data) = Except.ok r
      ∧ r.errors
          = errList 1 []
            ++ ("Line " ++ toString (([] : List (List Char)).length + 1)
                ++ ": Invalid command start \x27" ++ String.singleton 'x' ++ "\x27")
            :: errList (([] : List (List Char)).length + 2) [("G1".data)] :=
  ⟨⟨by decide, by decide, by decide, by decide, by decide, by decide⟩,
    claim_C5_invalid_start ("x10\nG1".data) [] [("G1".data)] ("x10".data) 'x' ("10".data)
      (by decide) (by decide) ⟨by decide, by decide, by decide, by decide⟩⟩

/-- When the uppercased first character is in the command-prefix set, no
`Invalid command start` error can arise. -/
theorem verdictOf_not_invalid {c : Char} (rest : List Char)
    (h : (pyUpper c = 'G' || pyUpper c = 'M' || pyUpper c = 'T' || pyUpper c = 'N') = true) :
    ∀ d : Char, verdictOf c rest ≠ some (VErr.invalidStart d) := by
  intro d
  unfold verdictOf
  rw [if_neg (by simp [h])]
  by_cases h2 : (pyUpper c = 'G' || pyUpper c = 'M') = true
  · rw [if_pos h2]
    cases rest with
    | nil => simp
    | cons d2 ds2 =>
      show (if pyIsDigit d2 = true then none else some VErr.missingNum)
          ≠ some (VErr.invalidStart d)
      by_cases h3 : pyIsDigit d2 = true
      · rw [if_pos h3]; simp
      · rw [if_neg h3]; simp
  · rw [if_neg h2]
    simp

/-- An `Invalid command start` error always quotes the original
(un-uppercased) first character. -/
theorem verdictOf_invalid_eq {c : Char} {rest : List Char} {d : Char}
    (h : verdictOf c rest = some (VErr.invalidStart d)) : d = c := by
  unfold verdictOf at h
  by_cases h1 : (pyUpper c = 'G' || pyUpper c = 'M' || pyUpper c = 'T' || pyUpper c = 'N')
      = false
  · rw [if_pos h1] at h
    exact (VErr.invalidStart.inj (Option.some.inj h)).symm
  · rw [if_neg h1] at h
    by_cases h2 : (pyUpper c = 'G' || pyUpper c = 'M') = true
    · rw [if_pos h2] at h
      cases rest with
      | nil => exact VErr.noConfusion (Option.some.inj h)
      | cons d2 ds2 =>
        by_cases h3 : pyIsDigit d2 = true
        · rw [show (match d2 :: ds2 with
              | [] => some VErr.missingNum
              | d :: _ => if pyIsDigit d then none else some VErr.missingNum)
              = if pyIsDigit d2 = true then none else some VErr.missingNum from rfl,
            if_pos h3] at h
          exact Option.noConfusion h
        · rw [show (match d2 :: ds2 with
              | [] => some VErr.missingNum
              | d :: _ => if pyIsDigit d then none else some VErr.missingNum)
              = if pyIsDigit d2 = true then none else some VErr.missingNum from rfl,
            if_neg h3] at h
          exact VErr.noConfusion (Option.some.inj h)
    · rw [if_neg h2] at h
      exact Option.noConfusion h

/-- The digit-after-prefix rule for `G`/`M` lines. -/
theorem verdictOf_missing {c : Char} {rest : List Char}
    (hgm : pyUpper c = 'G' ∨ pyUpper c = 'M')
    (hrest : rest = [] ∨ ∃ d ds, rest = d :: ds ∧ pyIsDigit d = false) :
    verdictOf c rest = some VErr.missingNum := by
  unfold verdictOf
  have h1 : (pyUpper c = 'G' || pyUpper c = 'M' || pyUpper c = 'T' || pyUpper c = 'N')
      = true := by
    rcases hgm with h | h <;> simp [h]
  have h2 : (pyUpper c = 'G' || pyUpper c = 'M') = true := by
    rcases hgm with h | h <;> simp [h]
  rw [if_neg (by simp [h1]), if_pos h2]
  rcases hrest with rfl | ⟨d, ds, rfl, hd⟩
  · rfl
  · show (if pyIsDigit d = true then none else some VErr.missingNum) = some VErr.missingNum
    rw [if_neg (by simp [hd])]

/-- Claim C10 (implicit): the command-prefix check is case-insensitive —
a line whose comment-stripped command text starts with lowercase `g`,
`m`, `t`, or `n` never yields an `Invalid command start` error; the
digit-after-prefix rule applies equally to lowercase `g` and `m`; and an
`Invalid command start` error always quotes the original un-uppercased
character. -/
theorem claim_C10_case_insensitive (l : List Char) (c : Char) (rest : List Char)
    (h : codeOf l = some (c :: rest)) :
    ((c = 'g' ∨ c = 'm' ∨ c = 't' ∨ c = 'n') →
      ∀ d : Char, lineVerdict l ≠ some (VErr.invalidStart d))
    ∧ ((c = 'g' ∨ c = 'm') →
        (rest = [] ∨ ∃ d ds, rest = d :: ds ∧ pyIsDigit d = false) →
        lineVerdict l = some VErr.missingNum)
    ∧ ∀ d : Char, lineVerdict l = some (VErr.invalidStart d) → d = c := by
  have h0 : lineVerdict l = verdictOf c rest := by
    unfold lineVerdict
    rw [h]
  refine ⟨?_, ?_, ?_⟩
  · intro hcase d
    rw [h0]
    apply verdictOf_not_invalid
    rcases hcase with rfl | rfl | rfl | rfl <;> decide
  · intro hcase hrest
    rw [h0]
    apply verdictOf_missing ?_ hrest
    rcases hcase with rfl | rfl
    · left; decide
    · right; decide
  · intro d hd
    rw [h0] at hd
    exact verdictOf_invalid_eq hd

/-- Witness for claim C10 at the line `"g"`: lowercase `g` passes the
prefix check and, having no second character, yields exactly the
missing-command-number error. -/
theorem claim_C10_witness :
    codeOf ("g".data) = some ('g' :: ([] : List Char))
    ∧ lineVerdict ("g".data) = some VErr.missingNum :=
  ⟨by decide,
    (claim_C10_case_insensitive ("g".data) 'g' [] (by decide)).2.1
      (Or.inl rfl) (Or.inl rfl)⟩

/-- Claim C7: a command line with an inline comment is split at the
first `';'`, both parts are trimmed, and the command is re-emitted
left-justified to the fixed column width of 20 followed by the comment
marker and the comment text; in particular `"G1 X10 Y10;move"` formats
to the padded command followed by `"; move"`. -/
theorem claim_C7_format_inline_comment :
    (∀ (l : List Char) (c : Char) (cs : List Char),
        pyStrip l = c :: cs → ¬c = ';' → (';' : Char) ∈ c :: cs →
        formatLine l
          = ljust (pyStrip ((c :: cs).takeWhile (fun a => a ≠ ';'))) 20 ++
            ' ' :: ';' :: ' ' :: pyStrip (((c :: cs).dropWhile (fun a => a ≠ ';')).tail))
    ∧ formatDoc ("G1 X10 Y10;move".data)
        = ljust ("G1 X10 Y10".data) 20 ++ (" ; move".data) :=
  ⟨fun _ _ _ h hc hcont => formatLine_spec h hc hcont, by decide⟩

/-- Witness for claim C7 at the line `" G1 X10 Y10;move "`. -/
theorem claim_C7_witness :
    (pyStrip (" G1 X10 Y10;move ".data) = 'G' :: ("1 X10 Y10;move".data)
      ∧ ¬('G' = ';') ∧ (';' : Char) ∈ 'G' :: ("1 X10 Y10;move".data))
    ∧ formatLine (" G1 X10 Y10;move ".data)
      = ljust (pyStrip (('G' :: ("1 X10 Y10;move".data)).takeWhile (fun a => a ≠ ';'))) 20 ++
        ' ' :: ';' :: ' ' ::
          pyStrip ((('G' :: ("1 X10 Y10;move".data)).dropWhile (fun a => a ≠ ';')).tail) :=
  ⟨⟨by decide, by decide, by decide⟩,
    claim_C7_format_inline_comment.1 (" G1 X10 Y10;move ".data) 'G'
      ("1 X10 Y10;move".data) (by decide) (by decide) (by decide)⟩

/-- Claim C1 counterexample: a successful `create_3mf` call (non-blank
G-code, template present, packaging succeeds) returns with the workspace
directory still present and both generated files still inside it — the
release does not run on the normal-completion path. -/
theorem claim_C1_counterexample :
    (create3mf false false false).success = true
    ∧ (create3mf false false false).ws.dirPresent = true
    ∧ (create3mf false false false).ws.files = ["temp_plot.gcode", "plot.3mf"] := by
  decide

/-- Claim C1 (amended): workspace release runs on every exit path of
`convert_to_gcode` (its cleanup is in a `finally` block), and on the
collaborator-failure path of `create_3mf`; but `create_3mf` runs no
cleanup on normal completion or on the missing-template return, leaving
the directory (and its files) behind. -/
theorem claim_C1_amended :
    (∀ noFile emptyName badType isDxf dxfFails svgFails : Bool,
        (convertToGcode noFile emptyName badType isDxf dxfFails svgFails).ws
          = { dirPresent := false, files := [] })
    ∧ (create3mf false false true).ws = { dirPresent := false, files := [] }
    ∧ (create3mf false false false).ws.dirPresent = true
    ∧ (create3mf false true false).ws.dirPresent = true := by
  refine ⟨?_, rfl, rfl, rfl⟩
  decide

end BambuCuts
